import Mathlib

/-!
Verification development for the multiline-abbreviation MkDocs plugin
(`src/mkdocs/plugins/multiline_abbr/plugin.py`).

Strings are modelled as `List Char` (the code points of the Python `str`);
top-level entry points wrap them into Lean `String`s.  Every function is a
direct shallow embedding of the corresponding Python function; functions
whose Python source consumes more than one character per step are written
with an explicit fuel argument initialised to the input length (each step
consumes at least one character, so the fuel never runs out; this keeps all
definitions structurally recursive and kernel-computable).

The anchored `LEVEL_RULES` regexes are embedded as deterministic
maximal-munch scanners: in each of them every greedy repetition is followed
by a literal that the repetition's character class excludes, so the
backtracking regex engine and the maximal-munch scan accept exactly the
same strings.
-/

/-- Python Unicode whitespace (the set accepted by `str.strip` and by the
regex class `\s` in Unicode mode): ASCII whitespace, the C1 separators,
NBSP, OGHAM space, the general-punctuation spaces, and the ideographic
space. -/
def pyIsSpace (c : Char) : Bool :=
  (9 ≤ c.toNat && c.toNat ≤ 13) || (28 ≤ c.toNat && c.toNat ≤ 31) ||
  c.toNat = 32 || c.toNat = 0x85 || c.toNat = 0xA0 || c.toNat = 0x1680 ||
  (0x2000 ≤ c.toNat && c.toNat ≤ 0x200A) || c.toNat = 0x2028 ||
  c.toNat = 0x2029 || c.toNat = 0x202F || c.toNat = 0x205F || c.toNat = 0x3000

/-- Decimal digits as matched by the regex class `\d` in Unicode mode,
restricted to the ranges that occur in this domain: ASCII digits and the
full-width digits U+FF10–U+FF19 (the other Unicode `Nd` ranges are scripts
that cannot occur in the plugin's Chinese legal-text input). -/
def pyIsDigit (c : Char) : Bool :=
  (48 ≤ c.toNat && c.toNat ≤ 57) || (0xFF10 ≤ c.toNat && c.toNat ≤ 0xFF19)

/-- The character class `[A-Za-z0-9]` used by the substitution boundary. -/
def isAsciiAlnum (c : Char) : Bool :=
  (65 ≤ c.toNat && c.toNat ≤ 90) || (97 ≤ c.toNat && c.toNat ≤ 122) ||
  (48 ≤ c.toNat && c.toNat ≤ 57)

/-- The character class `[a-zA-Z]`. -/
def isAsciiLetter (c : Char) : Bool :=
  (65 ≤ c.toNat && c.toNat ≤ 90) || (97 ≤ c.toNat && c.toNat ≤ 122)

/-- The CJK numerals of the class `[一二三四五六七八九十]`. -/
def isCjkNum (c : Char) : Bool :=
  c = '一' || c = '二' || c = '三' || c = '四' || c = '五' ||
  c = '六' || c = '七' || c = '八' || c = '九' || c = '十'

/-- The colon class `[：:]`. -/
def isColonChar (c : Char) : Bool := c = '：' || c = ':'

/-- Rule `^\s*第\s*\d+[-－]?\d*\s*條` (level 0). -/
def matchR1 (s : List Char) : Bool :=
  let t1 := s.dropWhile pyIsSpace
  t1.head? == some '第' &&
  (let t2 := t1.tail.dropWhile pyIsSpace
   !(t2.takeWhile pyIsDigit).isEmpty &&
   (let t3 := t2.dropWhile pyIsDigit
    let t4 := if t3.head? == some '-' || t3.head? == some '－' then t3.tail else t3
    ((t4.dropWhile pyIsDigit).dropWhile pyIsSpace).head? == some '條'))

/-- Rule `^\s*第\s*\d+\s*U[：:]` shared by the 項/款/目/次 rules. -/
def matchUnit (unit : Char) (s : List Char) : Bool :=
  let t1 := s.dropWhile pyIsSpace
  t1.head? == some '第' &&
  (let t2 := t1.tail.dropWhile pyIsSpace
   !(t2.takeWhile pyIsDigit).isEmpty &&
   (let t3 := (t2.dropWhile pyIsDigit).dropWhile pyIsSpace
    t3.head? == some unit && Option.any isColonChar t3.tail.head?))

/-- Rule `^\s*[一二三四五六七八九十]+、` (level 2). -/
def matchCjkBullet (s : List Char) : Bool :=
  let t := s.dropWhile pyIsSpace
  !(t.takeWhile isCjkNum).isEmpty && ((t.dropWhile isCjkNum).head? == some '、')

/-- Rule `^\s*（\d+）` (level 3). -/
def matchFwParenDigit (s : List Char) : Bool :=
  let t0 := s.dropWhile pyIsSpace
  t0.head? == some '（' &&
  (let t := t0.tail
   !(t.takeWhile pyIsDigit).isEmpty && ((t.dropWhile pyIsDigit).head? == some '）'))

/-- Rule `^\s*\(\d+\)` (level 3). -/
def matchParenDigit (s : List Char) : Bool :=
  let t0 := s.dropWhile pyIsSpace
  t0.head? == some '(' &&
  (let t := t0.tail
   !(t.takeWhile pyIsDigit).isEmpty && ((t.dropWhile pyIsDigit).head? == some ')'))

/-- Rule `^\s*（[一二三四五六七八九十]+）` (level 3). -/
def matchFwParenCjk (s : List Char) : Bool :=
  let t0 := s.dropWhile pyIsSpace
  t0.head? == some '（' &&
  (let t := t0.tail
   !(t.takeWhile isCjkNum).isEmpty && ((t.dropWhile isCjkNum).head? == some '）'))

/-- Rule `^\s*\([a-zA-Z]\)` (level 4). -/
def matchParenLetter (s : List Char) : Bool :=
  let t0 := s.dropWhile pyIsSpace
  t0.head? == some '(' && Option.any isAsciiLetter t0.tail.head? &&
  t0.tail.tail.head? == some ')'

/-- Rule `^\s*\d+、` (level 2). -/
def matchArabicBullet (s : List Char) : Bool :=
  let t := s.dropWhile pyIsSpace
  !(t.takeWhile pyIsDigit).isEmpty && ((t.dropWhile pyIsDigit).head? == some '、')

/-- The ordered rule table `LEVEL_RULES` from the plugin, in source order. -/
def LEVEL_RULES : List ((List Char → Bool) × Nat) :=
  [(matchR1, 0),
   (matchUnit '項', 1),
   (matchUnit '款', 2),
   (matchUnit '目', 3),
   (matchUnit '次', 4),
   (matchCjkBullet, 2),
   (matchFwParenDigit, 3),
   (matchParenDigit, 3),
   (matchFwParenCjk, 3),
   (matchParenLetter, 4),
   (matchArabicBullet, 2)]

/-- The classifier `detect_level`: the level of the first rule in
`LEVEL_RULES` whose (anchored) pattern matches the line, else 0. -/
def detect_level (s : List Char) : Nat :=
  match LEVEL_RULES.find? (fun r => r.1 s) with
  | some r => r.2
  | none => 0

/-! ### Claim C1: the line classifier -/

theorem cjk_not_digit {c : Char} (h : isCjkNum c = true) : pyIsDigit c = false := by
  simp [isCjkNum] at h
  rcases h with (((((((((h | h) | h) | h) | h) | h) | h) | h) | h) | h) <;>
    subst h <;> decide

theorem takeWhile_append_of_all {α : Type} {p : α → Bool} :
    ∀ (l t : List α), l.all p = true → (l ++ t).takeWhile p = l ++ t.takeWhile p := by
  intro l t h
  induction l with
  | nil => rfl
  | cons c l ih =>
      simp only [List.all_cons, Bool.and_eq_true] at h
      simp [List.takeWhile_cons, h.1, ih h.2]

theorem dropWhile_append_of_all {α : Type} {p : α → Bool} :
    ∀ (l t : List α), l.all p = true → (l ++ t).dropWhile p = t.dropWhile p := by
  intro l t h
  induction l with
  | nil => rfl
  | cons c l ih =>
      simp only [List.all_cons, Bool.and_eq_true] at h
      simp [List.dropWhile_cons, h.1, ih h.2]

theorem detect_level_le_four (s : List Char) : detect_level s ≤ 4 := by
  unfold detect_level
  cases hf : LEVEL_RULES.find? (fun r => r.1 s) with
  | none => exact Nat.zero_le 4
  | some r =>
      have hm := List.mem_of_find?_eq_some hf
      simp only [LEVEL_RULES, List.mem_cons, List.not_mem_nil, or_false] at hm
      rcases hm with h | h | h | h | h | h | h | h | h | h | h <;>
        subst h <;> decide

theorem detect_level_default (s : List Char)
    (h : LEVEL_RULES.all (fun r => !(r.1 s)) = true) : detect_level s = 0 := by
  unfold detect_level
  have hf : LEVEL_RULES.find? (fun r => r.1 s) = none := by
    rw [List.find?_eq_none]
    intro r hr
    have := (List.all_eq_true.mp h) r hr
    simpa using this
  rw [hf]

theorem detect_level_fw_paren_cjk (ws nums rest : List Char)
    (hws : ws.all pyIsSpace = true) (hne : nums ≠ [])
    (hnums : nums.all isCjkNum = true) :
    detect_level (ws ++ '（' :: (nums ++ '）' :: rest)) = 3 := by
  obtain ⟨n, ns, rfl⟩ : ∃ n ns, nums = n :: ns := by
    cases nums with
    | nil => exact absurd rfl hne
    | cons n ns => exact ⟨n, ns, rfl⟩
  simp only [List.all_cons, Bool.and_eq_true] at hnums
  simp only [List.cons_append]
  have hdw : (ws ++ '（' :: n :: (ns ++ '）' :: rest)).dropWhile pyIsSpace
      = '（' :: n :: (ns ++ '）' :: rest) := by
    rw [dropWhile_append_of_all _ _ hws]
    simp [List.dropWhile_cons, show pyIsSpace '（' = false from by decide]
  have htk : (n :: (ns ++ '）' :: rest)).takeWhile isCjkNum = n :: ns := by
    have := takeWhile_append_of_all (p := isCjkNum) (n :: ns) ('）' :: rest)
      (by simp [hnums.1, hnums.2])
    simpa [List.takeWhile_cons, show isCjkNum '）' = false from by decide]
      using this
  have hdk : (n :: (ns ++ '）' :: rest)).dropWhile isCjkNum = '）' :: rest := by
    have := dropWhile_append_of_all (p := isCjkNum) (n :: ns) ('）' :: rest)
      (by simp [hnums.1, hnums.2])
    simpa [List.dropWhile_cons, show isCjkNum '）' = false from by decide]
      using this
  have htkD : (n :: (ns ++ '）' :: rest)).takeWhile pyIsDigit = [] := by
    simp [List.takeWhile_cons, cjk_not_digit hnums.1]
  have e1 : matchR1 (ws ++ '（' :: n :: (ns ++ '）' :: rest)) = false := by
    simp [matchR1, hdw]
  have e2 : ∀ u, matchUnit u (ws ++ '（' :: n :: (ns ++ '）' :: rest)) = false := by
    intro u; simp [matchUnit, hdw]
  have e6 : matchCjkBullet (ws ++ '（' :: n :: (ns ++ '）' :: rest)) = false := by
    simp [matchCjkBullet, hdw, List.takeWhile_cons,
      show isCjkNum '（' = false from by decide]
  have e7 : matchFwParenDigit (ws ++ '（' :: n :: (ns ++ '）' :: rest)) = false := by
    simp [matchFwParenDigit, hdw, htkD]
  have e8 : matchParenDigit (ws ++ '（' :: n :: (ns ++ '）' :: rest)) = false := by
    simp [matchParenDigit, hdw]
  have e9 : matchFwParenCjk (ws ++ '（' :: n :: (ns ++ '）' :: rest)) = true := by
    simp [matchFwParenCjk, hdw, htk, hdk]
  unfold detect_level
  simp [LEVEL_RULES, List.find?, e1, e2, e6, e7, e8, e9]

/-- C1 counterexample: the code classifies a full-width parenthesized CJK
numeral line at level 3, not at level 4 as the claim states. -/
theorem c1_counterexample :
    detect_level "（一）".data = 3 ∧ detect_level "（一）".data ≠ 4 := by
  constructor <;> decide

/-- C1 (amended): `detect_level` is total with results in [0,4], returns the
level of the first matching rule of the ordered table `LEVEL_RULES` — in
particular a line whose leading content is a full-width parenthesized CJK
numeral is classified at level 3 — and returns 0 for every line matching
none of the rules. -/
theorem c1_detect_level_spec :
    (∀ s : List Char, detect_level s ≤ 4) ∧
    (∀ s : List Char, LEVEL_RULES.all (fun r => !(r.1 s)) = true →
      detect_level s = 0) ∧
    (∀ ws nums rest : List Char, ws.all pyIsSpace = true → nums ≠ [] →
      nums.all isCjkNum = true →
      detect_level (ws ++ '（' :: (nums ++ '）' :: rest)) = 3) :=
  ⟨detect_level_le_four, detect_level_default, detect_level_fw_paren_cjk⟩

/-- C1 witness: the amended theorem applied at concrete lines. -/
theorem c1_detect_level_spec_witness :
    LEVEL_RULES.all (fun r => !(r.1 "hello".data)) = true ∧
    detect_level "hello".data = 0 ∧
    detect_level (['　'] ++ '（' :: (['十', '一'] ++ '）' :: ['x'])) = 3 :=
  ⟨by decide, c1_detect_level_spec.2.1 _ (by decide),
   c1_detect_level_spec.2.2 ['　'] ['十', '一'] ['x'] (by decide) (by decide)
     (by decide)⟩

/-! ### The parser's rendering helpers: html.escape and lines_to_html -/

/-- Python `str.replace` (all non-overlapping occurrences, left to right),
with fuel; `pyReplace` below instantiates the fuel with the input length. -/
def replaceL (pat rep : List Char) : Nat → List Char → List Char
  | _, [] => []
  | 0, s => s
  | fuel + 1, c :: rest =>
      if !pat.isEmpty && pat.isPrefixOf (c :: rest) then
        rep ++ replaceL pat rep fuel ((c :: rest).drop pat.length)
      else
        c :: replaceL pat rep fuel rest

/-- Python `s.replace(pat, rep)`. -/
def pyReplace (s pat rep : List Char) : List Char :=
  replaceL pat rep s.length s

/-- Python `html.escape(s, quote=True)`: five sequential replaces, ampersand
first. -/
def htmlEscape (s : List Char) : List Char :=
  let s1 := pyReplace s "&".data "&amp;".data
  let s2 := pyReplace s1 "<".data "&lt;".data
  let s3 := pyReplace s2 ">".data "&gt;".data
  let s4 := pyReplace s3 "\"".data "&quot;".data
  pyReplace s4 "'".data "&#x27;".data

/-- Python `str.rstrip()`. -/
def pyRstrip (s : List Char) : List Char :=
  (s.reverse.dropWhile pyIsSpace).reverse

/-- The per-line wrapper emitted by `lines_to_html`. -/
def wrapLine (lvl : Nat) (esc : List Char) : List Char :=
  "<div class=\"mlabbr-line mlabbr-l".data ++ (Nat.repr lvl).data ++
    "\">".data ++ esc ++ "</div>".data

/-- The plugin's `lines_to_html`: rstrip each raw line, classify it, escape
it, wrap it in an indentation-tagged container, and concatenate. -/
def lines_to_html (lines : List (List Char)) : List Char :=
  (lines.map (fun raw =>
    let s := pyRstrip raw
    wrapLine (detect_level s) (htmlEscape s))).flatten

/-! ### Claim C9: escaping is single-pass -/

/-- Escaping a single character exactly once. -/
def escChar (c : Char) : List Char :=
  if c = '&' then "&amp;".data
  else if c = '<' then "&lt;".data
  else if c = '>' then "&gt;".data
  else if c = '"' then "&quot;".data
  else if c = '\'' then "&#x27;".data
  else [c]

/-- One escaping pass over a string, character by character. -/
def escStage (f : Char → List Char) (s : List Char) : List Char :=
  (s.map f).flatten

def escAmp (c : Char) : List Char := if c = '&' then "&amp;".data else [c]

def escLt (c : Char) : List Char := if c = '<' then "&lt;".data else [c]

def escGt (c : Char) : List Char := if c = '>' then "&gt;".data else [c]

def escQuot (c : Char) : List Char := if c = '"' then "&quot;".data else [c]

def escApos (c : Char) : List Char := if c = '\'' then "&#x27;".data else [c]

theorem replace_single_char (c : Char) (rep : List Char) :
    ∀ (fuel : Nat) (s : List Char), s.length ≤ fuel →
      replaceL [c] rep fuel s = (s.map (fun x => if x = c then rep else [x])).flatten := by
  intro fuel
  induction fuel with
  | zero =>
      intro s hs
      have : s = [] := List.eq_nil_of_length_eq_zero (Nat.le_zero.mp hs)
      subst this; rfl
  | succ fuel ih =>
      intro s hs
      cases s with
      | nil => rfl
      | cons x rest =>
          simp only [List.length_cons, Nat.succ_le_succ_iff] at hs
          by_cases hx : x = c
          · subst hx
            have hpre : [x].isPrefixOf (x :: rest) = true := by
              simp [List.isPrefixOf]
            simp [replaceL, hpre, ih rest hs]
          · have hpre : [c].isPrefixOf (x :: rest) = false := by
              simp [List.isPrefixOf]
              exact fun h => absurd h.symm hx
            simp [replaceL, hpre, ih rest hs, hx]

theorem escStage_single (f : Char → List Char) (c : Char) :
    escStage f [c] = f c := by
  simp [escStage]

/-- C9: `lines_to_html` renders each rstripped line, in source order, into
one level-tagged container whose text is the single-pass character escape of
the line: each occurrence of an ampersand (or angle bracket, or quote)
appears as its entity exactly once, never re-escaped. -/
theorem c9_lines_to_html_round_trip (lines : List (List Char)) :
    lines_to_html lines =
      (lines.map (fun raw =>
        wrapLine (detect_level (pyRstrip raw)) (escStage escChar (pyRstrip raw)))).flatten := by
  have hesc : ∀ s : List Char, htmlEscape s = escStage escChar s := by
    intro s
    have h1 : pyReplace s "&".data "&amp;".data = escStage escAmp s :=
      replace_single_char '&' "&amp;".data s.length s le_rfl
    have h2 : ∀ t : List Char, pyReplace t "<".data "&lt;".data = escStage escLt t :=
      fun t => replace_single_char '<' "&lt;".data t.length t le_rfl
    have h3 : ∀ t : List Char, pyReplace t ">".data "&gt;".data = escStage escGt t :=
      fun t => replace_single_char '>' "&gt;".data t.length t le_rfl
    have h4 : ∀ t : List Char, pyReplace t "\"".data "&quot;".data = escStage escQuot t :=
      fun t => replace_single_char '"' "&quot;".data t.length t le_rfl
    have h5 : ∀ t : List Char, pyReplace t "'".data "&#x27;".data = escStage escApos t :=
      fun t => replace_single_char '\'' "&#x27;".data t.length t le_rfl
    show pyReplace (pyReplace (pyReplace (pyReplace (pyReplace s _ _) _ _) _ _) _ _) _ _
        = escStage escChar s
    rw [h1, h2, h3, h4, h5]
    clear h1
    have hdist : ∀ (f : Char → List Char) (a b : List Char),
        escStage f (a ++ b) = escStage f a ++ escStage f b := by
      intro f a b; simp [escStage, List.map_append, List.flatten_append]
    have hcons : ∀ (f : Char → List Char) (t : List Char) (c0 : Char),
        escStage f (c0 :: t) = f c0 ++ escStage f t := by
      intro f t c0; simp [escStage]
    have hchar : ∀ c : Char,
        escStage escApos (escStage escQuot (escStage escGt (escStage escLt (escAmp c))))
          = escChar c := by
      intro c
      by_cases e1 : c = '&'
      · subst e1; decide
      by_cases e2 : c = '<'
      · subst e2; decide
      by_cases e3 : c = '>'
      · subst e3; decide
      by_cases e4 : c = '"'
      · subst e4; decide
      by_cases e5 : c = '\''
      · subst e5; decide
      simp [escAmp, escChar, e1, e2, e3, e4, e5, escStage_single, escLt,
        escGt, escQuot, escApos]
    induction s with
    | nil => rfl
    | cons c s ih =>
        rw [hcons escAmp s c, hdist escLt, hdist escGt, hdist escQuot,
          hdist escApos, ih, hcons escChar s c, hchar c]
  unfold lines_to_html
  simp only [hesc]

/-! ### The definitions parser: _load_abbrs -/

/-- Occurrence test: does `pat` occur as a contiguous substring? -/
def occursSub (pat : List Char) : List Char → Bool
  | [] => pat.isEmpty
  | s@(_ :: rest) => pat.isPrefixOf s || occursSub pat rest

/-- Index of the first occurrence of `pat` (the non-greedy closer search of
the comment regex). -/
def findSub (pat : List Char) : List Char → Option Nat
  | [] => if pat.isEmpty then some 0 else none
  | s@(_ :: rest) =>
      if pat.isPrefixOf s then some 0
      else (findSub pat rest).map (· + 1)

/-- Fuelled scanner for `re.sub(r"<!--.*?-->", "", text, flags=re.DOTALL)`:
at each position, an opener with a closer further right deletes through the
earliest closer; an opener with no closer (and every other character) is
kept. -/
def stripCommentsL : Nat → List Char → List Char
  | _, [] => []
  | 0, s => s
  | fuel + 1, c :: rest =>
      if "<!--".data.isPrefixOf (c :: rest) then
        match findSub "-->".data ((c :: rest).drop 4) with
        | some q => stripCommentsL fuel (((c :: rest).drop 4).drop (q + 3))
        | none => c :: stripCommentsL fuel rest
      else c :: stripCommentsL fuel rest

def stripComments (s : List Char) : List Char := stripCommentsL s.length s

/-- The line-break characters recognised by Python `str.splitlines`. -/
def isLineBreak (c : Char) : Bool :=
  c = '\n' || c = '\r' || c.toNat = 11 || c.toNat = 12 || c.toNat = 28 ||
  c.toNat = 29 || c.toNat = 30 || c.toNat = 0x85 || c.toNat = 0x2028 ||
  c.toNat = 0x2029

/-- Python `str.splitlines` (no trailing empty line; `\r\n` is one break),
with fuel. -/
def splitlinesL : Nat → List Char → List Char → List (List Char)
  | _, acc, [] => if acc.isEmpty then [] else [acc.reverse]
  | 0, acc, s => if (acc.reverse ++ s).isEmpty then [] else [acc.reverse ++ s]
  | fuel + 1, acc, c :: rest =>
      if c = '\r' && rest.head? == some '\n' then
        acc.reverse :: splitlinesL fuel [] rest.tail
      else if isLineBreak c then acc.reverse :: splitlinesL fuel [] rest
      else splitlinesL fuel (c :: acc) rest

def splitlines (s : List Char) : List (List Char) := splitlinesL s.length [] s

/-- The single-line comment-opener test `re.match(r"^\s*<!--", line)`. -/
def isCommentLine (line : List Char) : Bool :=
  "<!--".data.isPrefixOf (line.dropWhile pyIsSpace)

/-- Python `str.strip()`. -/
def pyStrip (s : List Char) : List Char := pyRstrip (s.dropWhile pyIsSpace)

/-- The test `line.strip() == ""`. -/
def isBlankLine (line : List Char) : Bool := line.all pyIsSpace

/-- The header regex `ABBR_DEF_RE = ^\*\[([^\]]+)\]\s*:\s*$`, returning the
(unstripped) group 1. -/
def parseHeader (line : List Char) : Option (List Char) :=
  if line.head? == some '*' && line.tail.head? == some '[' then
    let rest := line.tail.tail
    let key := rest.takeWhile (· != ']')
    let after := rest.dropWhile (· != ']')
    if key.isEmpty then none
    else if after.head? == some ']' then
      let t1 := after.tail.dropWhile pyIsSpace
      if t1.head? == some ':' && t1.tail.all pyIsSpace then some key else none
    else none
  else none

/-- The body-buffer update with blank-line collapsing: a blank line is
dropped when the buffer is empty or already ends in a blank line. -/
def appendLine (buf : List (List Char)) (line : List Char) : List (List Char) :=
  if isBlankLine line &&
      (match buf.getLast? with
       | none => true
       | some prev => isBlankLine prev) then
    buf
  else buf ++ [line]

/-- The buffer produced by feeding a block's body lines into an empty
buffer. -/
def collapse (lines : List (List Char)) : List (List Char) :=
  lines.foldl appendLine []

/-- Python-dict assignment on an insertion-ordered association list:
overwrite in place, else append. -/
def insertA : List (String × String) → String → String → List (String × String)
  | [], k, v => [(k, v)]
  | (k', v') :: rest, k, v =>
      if k' = k then (k, v) :: rest else (k', v') :: insertA rest k v

def lookupA : List (String × String) → String → Option String
  | [], _ => none
  | (k', v') :: rest, k => if k' = k then some v' else lookupA rest k

/-- The parser loop state: the map built so far, the current block key (if
a header has been seen), and the current body buffer. -/
structure PState where
  map : List (String × String)
  key : Option String
  buf : List (List Char)

/-- The finalisation `if key and buf: abbr_map[key] = lines_to_html(buf)`
(both at a new header and at end of input). -/
def finalizeBlock (st : PState) : List (String × String) :=
  match st.key with
  | some k =>
      if k ≠ "" ∧ st.buf ≠ [] then insertA st.map k ⟨lines_to_html st.buf⟩
      else st.map
  | none => st.map

/-- One iteration of the parser's line loop. -/
def stepLine (st : PState) (line : List Char) : PState :=
  if isCommentLine line then st
  else
    match parseHeader line with
    | some rawKey =>
        { map := finalizeBlock st, key := some ⟨pyStrip rawKey⟩, buf := [] }
    | none =>
        match st.key with
        | none => st
        | some _ => { st with buf := appendLine st.buf line }

/-- The plugin's `_load_abbrs`: strip block comments, split into lines, run
the block parser, finalize the dangling block. -/
def load_abbrs (src : String) : List (String × String) :=
  finalizeBlock ((splitlines (stripComments src.data)).foldl stepLine ⟨[], none, []⟩)

/-- A definitions source assembled from lines (each line terminated by a
newline). -/
def buildSrc (lines : List (List Char)) : List Char :=
  (lines.map (fun l => l ++ ['\n'])).flatten

/-- The header line `*[KEY]:` for a key. -/
def hdrLine (k : String) : List Char := "*[".data ++ k.data ++ "]:".data

/-! ### Claim C7: stored tooltip documents are never empty -/

theorem lookupA_insertA (m : List (String × String)) (k v k2 : String) :
    lookupA (insertA m k v) k2 = if k2 = k then some v else lookupA m k2 := by
  induction m with
  | nil =>
      by_cases h : k2 = k
      · simp [insertA, lookupA, h]
      · simp [insertA, lookupA, h, Ne.symm h]
  | cons p rest ih =>
      obtain ⟨k0, v0⟩ := p
      by_cases h0 : k0 = k
      · subst h0
        by_cases h2 : k2 = k0
        · simp [insertA, lookupA, h2]
        · simp [insertA, lookupA, h2, Ne.symm h2]
      · by_cases h2 : k0 = k2
        · have hk2 : ¬ k2 = k := by rw [← h2]; exact h0
          simp [insertA, lookupA, h0, h2, hk2]
        · simp [insertA, lookupA, h0, h2, ih]

theorem mk_ne_empty (l : List Char) (h : l ≠ []) : (⟨l⟩ : String) ≠ "" :=
  fun e => h (congrArg String.data e)

theorem lines_to_html_ne_nil (l : List Char) (ls : List (List Char)) :
    lines_to_html (l :: ls) ≠ [] := by
  simp only [lines_to_html, List.map_cons, List.flatten_cons, wrapLine]
  intro h
  have h1 := (List.append_eq_nil.mp h).1
  have h2 := (List.append_eq_nil.mp h1).1
  have h3 := (List.append_eq_nil.mp h2).1
  have h4 := (List.append_eq_nil.mp h3).1
  have h5 := (List.append_eq_nil.mp h4).1
  exact absurd h5 (by decide)

theorem finalizeBlock_mapOK (st : PState)
    (h : ∀ k v, lookupA st.map k = some v → v ≠ "") :
    ∀ k v, lookupA (finalizeBlock st) k = some v → v ≠ "" := by
  intro k v hv
  cases hks : st.key with
  | none =>
      simp only [finalizeBlock, hks] at hv
      exact h _ _ hv
  | some k0 =>
      simp only [finalizeBlock, hks] at hv
      by_cases hc : k0 ≠ "" ∧ st.buf ≠ []
      · rw [if_pos hc] at hv
        rw [lookupA_insertA] at hv
        by_cases hk : k = k0
        · rw [if_pos hk] at hv
          obtain ⟨b, bs, hbs⟩ : ∃ b bs, st.buf = b :: bs := by
            cases hbuf : st.buf with
            | nil => exact absurd hbuf hc.2
            | cons b bs => exact ⟨b, bs, rfl⟩
          have := Option.some.inj hv
          subst this
          rw [hbs]
          exact mk_ne_empty _ (lines_to_html_ne_nil b bs)
        · rw [if_neg hk] at hv
          exact h _ _ hv
      · rw [if_neg hc] at hv
        exact h _ _ hv

theorem stepLine_mapOK (st : PState) (line : List Char)
    (h : ∀ k v, lookupA st.map k = some v → v ≠ "") :
    ∀ k v, lookupA (stepLine st line).map k = some v → v ≠ "" := by
  intro k v hv
  by_cases h1 : isCommentLine line = true
  · simp only [stepLine, h1, if_true] at hv
    exact h _ _ hv
  · cases hp : parseHeader line with
    | some rawKey =>
        simp only [stepLine, h1, if_false, hp] at hv
        exact finalizeBlock_mapOK st h _ _ hv
    | none =>
        cases hks : st.key with
        | none =>
            simp only [stepLine, h1, if_false, hp, hks] at hv
            exact h _ _ hv
        | some k0 =>
            simp only [stepLine, h1, if_false, hp, hks] at hv
            exact h _ _ hv

theorem foldl_mapOK (lines : List (List Char)) :
    ∀ st : PState, (∀ k v, lookupA st.map k = some v → v ≠ "") →
      ∀ k v, lookupA (lines.foldl stepLine st).map k = some v → v ≠ "" := by
  induction lines with
  | nil => intro st h; exact h
  | cons l ls ih =>
      intro st h
      exact ih (stepLine st l) (stepLine_mapOK st l h)

theorem stripCommentsL_noop :
    ∀ (fuel : Nat) (s : List Char), occursSub "<!--".data s = false →
      stripCommentsL fuel s = s := by
  intro fuel
  induction fuel with
  | zero => intro s h; cases s <;> rfl
  | succ fuel ih =>
      intro s h
      cases s with
      | nil => rfl
      | cons c rest =>
          have h' : "<!--".data.isPrefixOf (c :: rest) = false ∧
              occursSub "<!--".data rest = false := by
            unfold occursSub at h
            exact ⟨by revert h; cases "<!--".data.isPrefixOf (c :: rest) <;> simp,
                   by revert h; cases occursSub "<!--".data rest <;> simp⟩
          simp [stripCommentsL, h'.1, ih rest h'.2]

theorem stripComments_noop (s : List Char)
    (h : occursSub "<!--".data s = false) : stripComments s = s :=
  stripCommentsL_noop _ _ h

theorem splitlinesL_cons_nobreak (f : Nat) (acc rest : List Char) (c : Char)
    (hc : isLineBreak c = false) :
    splitlinesL (f + 1) acc (c :: rest) = splitlinesL f (c :: acc) rest := by
  have hr : ¬ c = '\r' := by intro e; subst e; exact absurd hc (by decide)
  simp [splitlinesL, hr, hc]

theorem splitlinesL_cons_newline (f : Nat) (acc rest : List Char) :
    splitlinesL (f + 1) acc ('\n' :: rest) = acc.reverse :: splitlinesL f [] rest := by
  simp [splitlinesL, show isLineBreak '\n' = true from by decide,
    show ¬('\n' = '\r') from by decide]

theorem splitlinesL_line (l : List Char)
    (hl : l.all (fun c => !isLineBreak c) = true) :
    ∀ (fuel : Nat) (acc rest : List Char), l.length + 1 + rest.length ≤ fuel →
      splitlinesL fuel acc (l ++ '\n' :: rest)
        = (acc.reverse ++ l) :: splitlinesL (fuel - (l.length + 1)) [] rest := by
  induction l with
  | nil =>
      intro fuel acc rest hf
      cases fuel with
      | zero => exact absurd hf (by simp)
      | succ f =>
          simp only [List.nil_append, List.length_nil]
          rw [splitlinesL_cons_newline]
          simp
  | cons c l ih =>
      intro fuel acc rest hf
      simp only [List.all_cons, Bool.and_eq_true] at hl
      simp only [List.length_cons] at hf
      cases fuel with
      | zero => exact absurd hf (by omega)
      | succ f =>
          have hc : isLineBreak c = false := by
            have := hl.1
            revert this
            cases isLineBreak c <;> simp
          simp only [List.cons_append, List.length_cons]
          rw [splitlinesL_cons_nobreak f acc _ c hc]
          rw [ih hl.2 f (c :: acc) rest (by omega)]
          congr 1
          · simp
          · congr 1
            omega

theorem splitlines_buildSrc (lines : List (List Char))
    (h : lines.all (fun l => l.all (fun c => !isLineBreak c)) = true) :
    splitlines (buildSrc lines) = lines := by
  suffices hgen : ∀ (ls : List (List Char)) (fuel : Nat),
      ls.all (fun l => l.all (fun c => !isLineBreak c)) = true →
      (buildSrc ls).length ≤ fuel → splitlinesL fuel [] (buildSrc ls) = ls by
    exact hgen lines (buildSrc lines).length h le_rfl
  intro ls
  induction ls with
  | nil =>
      intro fuel h hf
      cases fuel <;> rfl
  | cons l rest ih =>
      intro fuel h hf
      simp only [List.all_cons, Bool.and_eq_true] at h
      have hb : buildSrc (l :: rest) = l ++ '\n' :: buildSrc rest := by
        simp [buildSrc]
      rw [hb] at hf ⊢
      have hlen : l.length + 1 + (buildSrc rest).length ≤ fuel := by
        simp [List.length_append] at hf
        omega
      rw [splitlinesL_line l h.1 fuel [] (buildSrc rest) hlen]
      simp only [List.reverse_nil, List.nil_append]
      congr 1
      exact ih (fuel - (l.length + 1)) h.2 (by omega)

theorem blank_not_header (l : List Char) (h : isBlankLine l = true) :
    parseHeader l = none := by
  cases l with
  | nil => rfl
  | cons c cs =>
      simp only [isBlankLine, List.all_cons, Bool.and_eq_true] at h
      have hc : ¬ c = '*' := by
        intro e; subst e; exact absurd h.1 (by decide)
      simp [parseHeader, hc]

theorem blank_not_comment (l : List Char) (h : isBlankLine l = true) :
    isCommentLine l = false := by
  unfold isCommentLine
  have hd : l.dropWhile pyIsSpace = [] := by
    rw [List.dropWhile_eq_nil_iff]
    intro x hx
    exact List.all_eq_true.mp h x hx
  rw [hd]
  decide

theorem foldl_blanks (blanks : List (List Char)) :
    ∀ st : PState, st.map = [] → st.buf = [] → blanks.all isBlankLine = true →
      (blanks.foldl stepLine st).map = [] ∧ (blanks.foldl stepLine st).buf = [] := by
  induction blanks with
  | nil => intro st h1 h2 _; exact ⟨h1, h2⟩
  | cons b bs ih =>
      intro st h1 h2 hb
      simp only [List.all_cons, Bool.and_eq_true] at hb
      have hstep : (stepLine st b).map = [] ∧ (stepLine st b).buf = [] := by
        unfold stepLine
        rw [blank_not_comment b hb.1, blank_not_header b hb.1]
        simp only [Bool.false_eq_true, if_false]
        cases hks : st.key with
        | none => exact ⟨h1, h2⟩
        | some k0 =>
            refine ⟨h1, ?_⟩
            rw [h2]
            simp [appendLine, hb.1]
      simp only [List.foldl_cons]
      exact ih (stepLine st b) hstep.1 hstep.2 hb.2

theorem load_abbrs_blank_body (first : List Char) (blanks : List (List Char))
    (hc : occursSub "<!--".data (buildSrc (first :: blanks)) = false)
    (hb : (first :: blanks).all (fun l => l.all (fun c => !isLineBreak c)) = true)
    (hblank : blanks.all isBlankLine = true) :
    load_abbrs ⟨buildSrc (first :: blanks)⟩ = [] := by
  unfold load_abbrs
  have hdata : (⟨buildSrc (first :: blanks)⟩ : String).data
      = buildSrc (first :: blanks) := rfl
  rw [hdata, stripComments_noop _ hc, splitlines_buildSrc _ hb]
  simp only [List.foldl_cons]
  have hst1 : (stepLine ⟨[], none, []⟩ first).map = []
      ∧ (stepLine ⟨[], none, []⟩ first).buf = [] := by
    unfold stepLine
    by_cases h1 : isCommentLine first = true
    · simp [h1]
    · simp only [h1, Bool.false_eq_true, if_false]
      cases hp : parseHeader first with
      | some rawKey => exact ⟨rfl, rfl⟩
      | none => exact ⟨rfl, rfl⟩
  have hfin := foldl_blanks blanks (stepLine ⟨[], none, []⟩ first)
    hst1.1 hst1.2 hblank
  cases hks : (blanks.foldl stepLine (stepLine ⟨[], none, []⟩ first)).key with
  | none =>
      simp only [finalizeBlock, hks]
      exact hfin.1
  | some k0 =>
      simp only [finalizeBlock, hks]
      rw [if_neg]
      · exact hfin.1
      · intro hcon
        exact absurd hfin.2 hcon.2

/-- C7: every value stored in the index built by `_load_abbrs` is a
non-empty rendered document, and a block whose body is only blank lines
yields no entry at all (the dangling end-of-input block is finalized by the
same `finalizeBlock` rule as an interior one). -/
theorem c7_index_values_nonempty :
    (∀ (src k v : String), lookupA (load_abbrs src) k = some v → v ≠ "") ∧
    (∀ (first : List Char) (blanks : List (List Char)),
      occursSub "<!--".data (buildSrc (first :: blanks)) = false →
      (first :: blanks).all (fun l => l.all (fun c => !isLineBreak c)) = true →
      blanks.all isBlankLine = true →
      load_abbrs ⟨buildSrc (first :: blanks)⟩ = []) := by
  constructor
  · intro src k v hv
    unfold load_abbrs at hv
    refine finalizeBlock_mapOK _ ?_ k v hv
    exact foldl_mapOK _ ⟨[], none, []⟩ (fun k v h => by simp [lookupA] at h)
  · exact load_abbrs_blank_body

/-- C7 witness: a concrete source with a body and a concrete blank-only
block. -/
theorem c7_index_values_nonempty_witness :
    (lookupA (load_abbrs "*[K]:\nbody") "K"
        = some "<div class=\"mlabbr-line mlabbr-l0\">body</div>" ∧
      ("<div class=\"mlabbr-line mlabbr-l0\">body</div>" : String) ≠ "") ∧
    load_abbrs ⟨buildSrc ("*[K]:".data :: [" ".data, "".data])⟩ = [] :=
  ⟨⟨by decide, c7_index_values_nonempty.1 "*[K]:\nbody" "K" _ (by decide)⟩,
   c7_index_values_nonempty.2 "*[K]:".data [" ".data, "".data]
     (by decide) (by decide) (by decide)⟩

/-! ### Claim C6: a later block for the same key replaces the earlier one -/

theorem foldl_body (lines : List (List Char)) :
    ∀ st : PState,
      lines.all (fun l => !isCommentLine l && (parseHeader l).isNone) = true →
      st.key.isSome = true →
      lines.foldl stepLine st
        = ⟨st.map, st.key, lines.foldl appendLine st.buf⟩ := by
  induction lines with
  | nil => intro st _ _; rfl
  | cons l ls ih =>
      intro st hl hk
      simp only [List.all_cons, Bool.and_eq_true] at hl
      obtain ⟨⟨hcmt, hhdr⟩, hrest⟩ := hl
      have hcmt' : isCommentLine l = false := by
        revert hcmt; cases isCommentLine l <;> simp
      have hhdr' : parseHeader l = none := Option.isNone_iff_eq_none.mp hhdr
      obtain ⟨k0, hk0⟩ : ∃ k0, st.key = some k0 :=
        Option.isSome_iff_exists.mp hk
      have hstep : stepLine st l = ⟨st.map, st.key, appendLine st.buf l⟩ := by
        unfold stepLine
        rw [hcmt', hhdr', hk0]
        simp
      simp only [List.foldl_cons, hstep]
      have := ih ⟨st.map, st.key, appendLine st.buf l⟩ hrest (by rw [hk0]; rfl)
      simpa using this

theorem string_mk_data (k : String) : (⟨k.data⟩ : String) = k := by
  cases k
  rfl

/-- C6: a definitions source consisting of a block for key `k`, then a
second block for the same key (both bodies non-empty after blank-line
collapsing, no comments or breaks involved), parses to an index whose only
entry for `k` is the rendered markup of the second block. -/
theorem c6_later_block_overwrites (k : String) (b1 b2 : List (List Char))
    (hdrOK : parseHeader (hdrLine k) = some k.data)
    (hstrip : pyStrip k.data = k.data)
    (hk : k ≠ "")
    (hcmt : isCommentLine (hdrLine k) = false)
    (hnb : (hdrLine k).all (fun c => !isLineBreak c) = true)
    (hbody : (b1 ++ b2).all (fun l => !isCommentLine l && (parseHeader l).isNone) = true)
    (hbnb : (b1 ++ b2).all (fun l => l.all (fun c => !isLineBreak c)) = true)
    (hno : occursSub "<!--".data
      (buildSrc (hdrLine k :: (b1 ++ hdrLine k :: b2))) = false)
    (hc1 : collapse b1 ≠ []) (hc2 : collapse b2 ≠ []) :
    load_abbrs ⟨buildSrc (hdrLine k :: (b1 ++ hdrLine k :: b2))⟩
      = [(k, ⟨lines_to_html (collapse b2)⟩)] := by
  simp only [List.all_append, Bool.and_eq_true] at hbody hbnb
  unfold load_abbrs
  have hdata : (⟨buildSrc (hdrLine k :: (b1 ++ hdrLine k :: b2))⟩ : String).data
      = buildSrc (hdrLine k :: (b1 ++ hdrLine k :: b2)) := rfl
  rw [hdata, stripComments_noop _ hno]
  rw [splitlines_buildSrc _ (by
    simp [List.all_cons, List.all_append, hnb, hbnb.1, hbnb.2])]
  simp only [List.foldl_cons]
  have hstep1 : stepLine ⟨[], none, []⟩ (hdrLine k) = ⟨[], some k, []⟩ := by
    unfold stepLine
    rw [hcmt, hdrOK]
    simp only [Bool.false_eq_true, if_false]
    unfold finalizeBlock
    simp [hstrip, string_mk_data]
  rw [hstep1, List.foldl_append]
  rw [foldl_body b1 ⟨[], some k, []⟩ hbody.1 rfl]
  simp only [List.foldl_cons]
  have hstep2 : stepLine ⟨[], some k, collapse b1⟩ (hdrLine k)
      = ⟨[(k, ⟨lines_to_html (collapse b1)⟩)], some k, []⟩ := by
    unfold stepLine
    rw [hcmt, hdrOK]
    simp only [Bool.false_eq_true, if_false]
    unfold finalizeBlock
    simp only
    rw [if_pos ⟨hk, hc1⟩]
    simp [insertA, hstrip, string_mk_data]
  have hcol : (⟨[], some k, collapse b1⟩ : PState)
      = ⟨[], some k, List.foldl appendLine [] b1⟩ := rfl
  rw [← hcol, hstep2]
  rw [foldl_body b2 ⟨[(k, ⟨lines_to_html (collapse b1)⟩)], some k, []⟩ hbody.2 rfl]
  unfold finalizeBlock
  simp only
  rw [if_pos ⟨hk, hc2⟩]
  simp [insertA, collapse]

/-- C6 witness: two concrete blocks for the key `K`. -/
theorem c6_later_block_overwrites_witness :
    load_abbrs ⟨buildSrc (hdrLine "K" :: (["a".data] ++ hdrLine "K" :: ["b".data]))⟩
      = [("K", ⟨lines_to_html (collapse ["b".data])⟩)] :=
  c6_later_block_overwrites "K" ["a".data] ["b".data] (by decide) (by decide)
    (by decide) (by decide) (by decide) (by decide) (by decide) (by decide)
    (by decide) (by decide)

/-! ### The boundary substitution engine: _replace_in_plain -/

/-- Stable insertion for `sorted(keys, key=len, reverse=True)`: a key moves
ahead of exactly the strictly shorter keys, so equal-length keys keep their
original (insertion) order. -/
def insertByLen (x : String) : List String → List String
  | [] => [x]
  | y :: ys => if y.length ≤ x.length then x :: y :: ys else y :: insertByLen x ys

def sortKeysDesc : List String → List String
  | [] => []
  | x :: xs => insertByLen x (sortKeysDesc xs)

/-- The alternation branches of `key_re`, longest key first. -/
def patternKeys (m : List (String × String)) : List String :=
  sortKeysDesc (m.map Prod.fst)

/-- The lookbehind `(?<![A-Za-z0-9])` applied to the character before the
match position (`none` at the start of the text). -/
def prevOK : Option Char → Bool
  | none => true
  | some c => !isAsciiAlnum c

/-- The lookahead `(?![A-Za-z0-9])` applied to the text after the match. -/
def nextOK : List Char → Bool
  | [] => true
  | c :: _ => !isAsciiAlnum c

/-- The first alternation branch accepted at this position: the key must
match literally and both boundary conditions must hold.  (A zero-length
key — which the header regex `[^\]]+` cannot produce — is skipped so that
the scan always consumes input.) -/
def tryMatch (keys : List String) (prev : Option Char) (s : List Char) :
    Option String :=
  keys.find? (fun k => !k.data.isEmpty && k.data.isPrefixOf s &&
    prevOK prev && nextOK (s.drop k.data.length))

/-- A segment of the scanned output: a literal character, or a key matched
by `key_re` together with the payload `abbr_map.get(k)`. -/
inductive Seg where
  | chr (c : Char)
  | matched (k : String) (payload : Option String)

/-- The marker emitted by `repl`:
`<span class="mlabbr" data-mlabbr="{escaped}">{key}</span>`. -/
def markerHtml (k h : String) : List Char :=
  "<span class=\"mlabbr\" data-mlabbr=\"".data ++ htmlEscape h.data ++
    "\">".data ++ k.data ++ "</span>".data

/-- The replacement function `repl`: a missing or empty payload re-emits
the key unchanged (`if not html_title: return k`). -/
def renderSeg : Seg → List Char
  | .chr c => [c]
  | .matched k p =>
      match p with
      | some h => if h = "" then k.data else markerHtml k h
      | none => k.data

/-- The left-to-right scan of `key_re.sub(repl, text)`: at each position the
first accepted branch consumes the key, otherwise one literal character is
emitted; `prev` tracks the character of the original text immediately
before the current position. -/
def scanSegs (m : List (String × String)) (keys : List String) :
    Nat → Option Char → List Char → List Seg
  | 0, _, _ => []
  | _ + 1, _, [] => []
  | fuel + 1, prev, c :: rest =>
      match tryMatch keys prev (c :: rest) with
      | some k =>
          .matched k (lookupA m k) ::
            scanSegs m keys fuel k.data.getLast? ((c :: rest).drop k.data.length)
      | none => .chr c :: scanSegs m keys fuel (some c) rest

/-- `_replace_in_plain` on the character list (the path taken when
`key_re` is set). -/
def replCore (m : List (String × String)) (s : List Char) : List Char :=
  ((scanSegs m (patternKeys m) s.length none s).map renderSeg).flatten

/-- `_replace_in_plain`: with an empty index `key_re` is `None` and the
text is returned unchanged. -/
def replace_in_plain (m : List (String × String)) (text : String) : String :=
  if m.isEmpty then text else ⟨replCore m text.data⟩

/-- The `on_config` index: a missing definitions file yields the empty
index rather than an error. -/
def configIndex (fileExists : Bool) (src : String) : List (String × String) :=
  if fileExists then load_abbrs src else []

/-- The positions (character offset into the original text) and keys of the
matches accepted by the scan. -/
def occsOfSegs : Nat → List Seg → List (Nat × String)
  | _, [] => []
  | i, .chr _ :: ss => occsOfSegs (i + 1) ss
  | i, .matched k _ :: ss => (i, k) :: occsOfSegs (i + k.data.length) ss

def matchedOccs (m : List (String × String)) (s : List Char) :
    List (Nat × String) :=
  occsOfSegs 0 (scanSegs m (patternKeys m) s.length none s)

/-- The character at an offset, if any. -/
def charAt? (s : List Char) (i : Nat) : Option Char := (s.drop i).head?

/-- Does key `k` occur literally at offset `p`? -/
def occursAtP (k : String) (s : List Char) (p : Nat) : Bool :=
  k.data.isPrefixOf (s.drop p)

/-- The claim's boundary condition at an occurrence: the characters
immediately before and after (when present) are not ASCII alphanumerics. -/
def boundaryOK (s : List Char) (p : Nat) (k : String) : Bool :=
  (match p with
   | 0 => true
   | q + 1 => prevOK (charAt? s q)) && nextOK (s.drop (p + k.data.length))

/-! ### Claim C8: missing resource, empty index, identity substitution -/

theorem scanSegs_nil_input (m : List (String × String)) (keys : List String) :
    ∀ (fuel : Nat) (prev : Option Char), scanSegs m keys fuel prev [] = [] := by
  intro fuel prev
  cases fuel <;> rfl

theorem scan_no_keys (m : List (String × String)) :
    ∀ (fuel : Nat) (prev : Option Char) (s : List Char), s.length ≤ fuel →
      ((scanSegs m [] fuel prev s).map renderSeg).flatten = s := by
  intro fuel
  induction fuel with
  | zero =>
      intro prev s hs
      have : s = [] := List.eq_nil_of_length_eq_zero (Nat.le_zero.mp hs)
      subst this; rfl
  | succ fuel ih =>
      intro prev s hs
      cases s with
      | nil => rfl
      | cons c rest =>
          simp only [List.length_cons, Nat.succ_le_succ_iff] at hs
          have htm : tryMatch [] prev (c :: rest) = none := rfl
          simp only [scanSegs, htm, List.map_cons, List.flatten_cons,
            renderSeg, List.singleton_append]
          rw [ih (some c) rest hs]

/-- C8: when the definitions resource is missing, `on_config` builds the
empty index without failing, and substitution over the empty index is the
identity on every page text (both through the `key_re is None` shortcut and
through the scan itself). -/
theorem c8_empty_index_identity :
    (∀ src : String, configIndex false src = []) ∧
    (∀ text : String, replace_in_plain [] text = text) ∧
    (∀ s : List Char, replCore [] s = s) := by
  refine ⟨fun src => rfl, fun text => rfl, fun s => ?_⟩
  exact scan_no_keys [] s.length none s le_rfl

/-! ### Claim C3: longest key first -/

theorem string_ne_of_length_lt {k1 k2 : String} (h : k1.length < k2.length) :
    ¬ k1 = k2 :=
  fun e => absurd (congrArg String.length e) (Nat.ne_of_lt h)

/-- C3: in an index holding a key and a longer key extending it, the text
consisting of the longer key is substituted as one marker for the longer
key (with its payload), never as the shorter key plus literal text, and the
scan accepts exactly one match, at offset 0. -/
theorem c3_longest_match (k1 k2 h1 h2 : String)
    (hpre : k1.data.isPrefixOf k2.data = true)
    (hlen : k1.length < k2.length)
    (hne2 : ¬ h2 = "") :
    replace_in_plain [(k1, h1), (k2, h2)] k2 = ⟨markerHtml k2 h2⟩ ∧
    matchedOccs [(k1, h1), (k2, h2)] k2.data = [(0, k2)] := by
  have hkeys : patternKeys [(k1, h1), (k2, h2)] = [k2, k1] := by
    simp only [patternKeys, List.map_cons, List.map_nil, sortKeysDesc,
      insertByLen]
    rw [if_neg (by omega)]
  have hd2 : k2.data ≠ [] := by
    intro e
    have : k2.length = 0 := by simp [String.length, e]
    omega
  have htm : tryMatch [k2, k1] none k2.data = some k2 := by
    unfold tryMatch
    apply List.find?_cons_of_pos
    simp only [Bool.and_eq_true]
    refine ⟨⟨⟨?_, ?_⟩, rfl⟩, ?_⟩
    · simp [List.isEmpty_iff, hd2]
    · exact List.isPrefixOf_iff_prefix.mpr (List.prefix_refl _)
    · rw [List.drop_length]
      rfl
  obtain ⟨c, rest, hcr⟩ : ∃ c rest, k2.data = c :: rest := by
    cases he : k2.data with
    | nil => exact absurd he hd2
    | cons c rest => exact ⟨c, rest, rfl⟩
  have hlook : lookupA [(k1, h1), (k2, h2)] k2 = some h2 := by
    simp [lookupA, string_ne_of_length_lt hlen]
  have hlen2 : k2.data.length = rest.length + 1 := by rw [hcr]; rfl
  have hscan : scanSegs [(k1, h1), (k2, h2)] [k2, k1] k2.data.length none k2.data
      = [Seg.matched k2 (some h2)] := by
    rw [hlen2, hcr]
    simp only [scanSegs, ← hcr, htm, hlook]
    rw [List.drop_length, scanSegs_nil_input]
  constructor
  · have hne : ([(k1, h1), (k2, h2)] : List (String × String)).isEmpty = false := rfl
    simp only [replace_in_plain, hne, Bool.false_eq_true, if_false, replCore,
      hkeys]
    rw [hscan]
    simp [renderSeg, hne2]
  · simp only [matchedOccs, hkeys]
    rw [hscan]
    rfl

/-- C3 witness: the overlapping keys AB and ABC on the text ABC. -/
theorem c3_longest_match_witness :
    replace_in_plain [("AB", "x"), ("ABC", "y")] "ABC" = ⟨markerHtml "ABC" "y"⟩ ∧
    matchedOccs [("AB", "x"), ("ABC", "y")] ("ABC" : String).data = [(0, "ABC")] :=
  c3_longest_match "AB" "ABC" "x" "y" (by decide) (by decide) (by decide)

/-! ### Claim C4: boundary enforcement -/

theorem charAt_last (s : List Char) :
    ∀ (t0 : List Char) (q : Nat), t0.length = q + 1 →
      charAt? (t0 ++ s) q = t0.getLast? := by
  intro t0
  induction t0 with
  | nil => intro q hq; simp at hq
  | cons d ds ih =>
      intro q hq
      cases ds with
      | nil =>
          have : q = 0 := by simpa using hq
          subst this
          rfl
      | cons e es =>
          cases q with
          | zero => simp at hq
          | succ q' =>
              have hq' : (e :: es).length = q' + 1 := by simpa using hq
              calc charAt? ((d :: e :: es) ++ s) (q' + 1)
                  = charAt? ((e :: es) ++ s) q' := by
                    simp [charAt?, List.drop_succ_cons]
                _ = (e :: es).getLast? := ih q' hq'
                _ = (d :: e :: es).getLast? := (List.getLast?_cons_cons ..).symm

theorem occs_inv (m : List (String × String)) (keys : List String) :
    ∀ (fuel : Nat) (t0 s : List Char), s.length ≤ fuel →
      ∀ (p : Nat) (k : String),
        (p, k) ∈ occsOfSegs t0.length (scanSegs m keys fuel t0.getLast? s) →
        occursAtP k (t0 ++ s) p = true ∧ boundaryOK (t0 ++ s) p k = true := by
  intro fuel
  induction fuel with
  | zero =>
      intro t0 s hs p k hmem
      have : s = [] := List.eq_nil_of_length_eq_zero (Nat.le_zero.mp hs)
      subst this
      simp [scanSegs, occsOfSegs] at hmem
  | succ fuel ih =>
      intro t0 s hs p k hmem
      cases s with
      | nil =>
          rw [scanSegs_nil_input] at hmem
          simp [occsOfSegs] at hmem
      | cons c rest =>
          simp only [List.length_cons, Nat.succ_le_succ_iff] at hs
          cases htm : tryMatch keys t0.getLast? (c :: rest) with
          | none =>
              rw [show scanSegs m keys (fuel + 1) t0.getLast? (c :: rest)
                  = Seg.chr c :: scanSegs m keys fuel (some c) rest from by
                simp [scanSegs, htm]] at hmem
              simp only [occsOfSegs] at hmem
              have hlast : (t0 ++ [c]).getLast? = some c := by
                simp
              have hlen : (t0 ++ [c]).length = t0.length + 1 := by simp
              have hres := ih (t0 ++ [c]) rest (by omega) p k
                (by rw [hlen, hlast]; exact hmem)
              rwa [List.append_assoc, List.singleton_append] at hres
          | some k0 =>
              rw [show scanSegs m keys (fuel + 1) t0.getLast? (c :: rest)
                  = Seg.matched k0 (lookupA m k0) ::
                    scanSegs m keys fuel k0.data.getLast?
                      ((c :: rest).drop k0.data.length) from by
                simp [scanSegs, htm]] at hmem
              have hpred := List.find?_some htm
              simp only [Bool.and_eq_true] at hpred
              obtain ⟨⟨⟨hne0, hpre0⟩, hprev0⟩, hnext0⟩ := hpred
              have hk0ne : k0.data ≠ [] := by
                simpa [List.isEmpty_iff] using hne0
              have hk0pos : 0 < k0.data.length := List.length_pos.mpr hk0ne
              have hpre' : k0.data ++ (c :: rest).drop k0.data.length = c :: rest := by
                have hp := List.isPrefixOf_iff_prefix.mp hpre0
                have heq := List.prefix_iff_eq_take.mp hp
                conv_rhs =>
                  rw [← List.take_append_drop k0.data.length (c :: rest)]
                rw [← heq]
              simp only [occsOfSegs, List.mem_cons] at hmem
              rcases hmem with hmem | hmem
              · obtain ⟨hp, hk⟩ := Prod.mk.inj hmem
                subst hp
                subst hk
                constructor
                · unfold occursAtP
                  rw [List.drop_left]
                  exact hpre0
                · unfold boundaryOK
                  simp only [Bool.and_eq_true]
                  constructor
                  · cases ht0 : t0 with
                    | nil => rfl
                    | cons d ds =>
                        have hlen0 : (d :: ds).length = ds.length + 1 := rfl
                        rw [← ht0]
                        rw [show t0.length = ds.length + 1 from by rw [ht0]; rfl]
                        have := charAt_last (c :: rest) t0 ds.length
                          (by rw [ht0]; rfl)
                        simp only [this]
                        rwa [ht0] at hprev0 ⊢
                        
                  · rw [← List.drop_drop, List.drop_left]
                    exact hnext0
              · have hfu : ((c :: rest).drop k0.data.length).length ≤ fuel := by
                  rw [List.length_drop]
                  simp only [List.length_cons]
                  omega
                have hmem' : (p, k) ∈ occsOfSegs (t0 ++ k0.data).length
                    (scanSegs m keys fuel (t0 ++ k0.data).getLast?
                      ((c :: rest).drop k0.data.length)) := by
                  rw [List.length_append, List.getLast?_append_of_ne_nil _ hk0ne]
                  exact hmem
                have hres := ih (t0 ++ k0.data) ((c :: rest).drop k0.data.length)
                  hfu p k hmem'
                rwa [List.append_assoc, hpre'] at hres

/-- C4 counterexample: with the single key `--`, in the text `---` the
occurrence of `--` at offset 1 has no ASCII-alphanumeric neighbour, yet the
engine does not substitute it (the match at offset 0 already consumed
offset 1), refuting the claim's "if" direction. -/
theorem c4_counterexample :
    occursAtP "--" "---".data 1 = true ∧
    boundaryOK "---".data 1 "--" = true ∧
    matchedOccs [("--", "T")] "---".data = [(0, "--")] ∧
    ¬ (1, "--") ∈ matchedOccs [("--", "T")] "---".data :=
  ⟨by decide, by decide, by decide, by decide⟩

/-- C4 (amended): every occurrence the engine substitutes is a literal
occurrence of its key whose neighbouring characters (when present) are not
ASCII letters or digits; hence an occurrence flanked by an ASCII
alphanumeric is never substituted — "XABY" yields no marker for key "AB"
while "中AB文" yields one.  (The converse of the original claim fails for
occurrences overlapping an earlier accepted match.) -/
theorem c4_boundary_enforcement :
    (∀ (m : List (String × String)) (s : List Char) (p : Nat) (k : String),
      (p, k) ∈ matchedOccs m s →
      occursAtP k s p = true ∧ boundaryOK s p k = true) ∧
    replace_in_plain [("AB", "T")] "XABY" = "XABY" ∧
    replace_in_plain [("AB", "T")] "中AB文"
      = ⟨"中".data ++ (markerHtml "AB" "T" ++ "文".data)⟩ := by
  refine ⟨?_, by decide, by decide⟩
  intro m s p k hmem
  have hres := occs_inv m (patternKeys m) s.length [] s le_rfl p k hmem
  simpa using hres

/-- C4 witness: the boundary facts extracted from the accepted match of
`AB` at offset 1 of `中AB文`. -/
theorem c4_boundary_enforcement_witness :
    (1, "AB") ∈ matchedOccs [("AB", "T")] "中AB文".data ∧
    (occursAtP "AB" "中AB文".data 1 = true ∧
      boundaryOK "中AB文".data 1 "AB" = true) :=
  ⟨by decide, c4_boundary_enforcement.1 [("AB", "T")] "中AB文".data 1 "AB"
    (by decide)⟩

/-! ### The fence splitter: on_page_markdown -/

/-- The length of the fenced-span match beginning exactly here, if any: one
branch of the split pattern `(```.*?```|~~~.*?~~~)` with DOTALL, the
non-greedy body ending at the earliest closer. -/
def fenceMatchAt (s : List Char) : Option Nat :=
  if "```".data.isPrefixOf s then
    (findSub "```".data (s.drop 3)).map (fun q => q + 6)
  else if "~~~".data.isPrefixOf s then
    (findSub "~~~".data (s.drop 3)).map (fun q => q + 6)
  else none

/-- `re.split` with the capturing fence pattern: pieces alternate
non-matching text and fence matches, beginning and ending with (possibly
empty) non-matching text. -/
def splitFencesL : Nat → List Char → List Char → List (List Char)
  | 0, acc, s => [acc.reverse ++ s]
  | _ + 1, acc, [] => [acc.reverse]
  | fuel + 1, acc, c :: rest =>
      match fenceMatchAt (c :: rest) with
      | some len =>
          acc.reverse :: (c :: rest).take len ::
            splitFencesL fuel [] ((c :: rest).drop len)
      | none => splitFencesL fuel (c :: acc) rest

def splitFences (s : List Char) : List (List Char) := splitFencesL s.length [] s

/-- `_replace_in_plain` on a character-list segment (with the
`key_re is None` shortcut). -/
def replPlainL (m : List (String × String)) (s : List Char) : List Char :=
  if m.isEmpty then s else replCore m s

/-- The loop `for i in range(0, len(parts), 2)`: even-indexed (non-code)
parts are substituted, odd-indexed (fence) parts are kept. -/
def transformParts (m : List (String × String)) :
    Bool → List (List Char) → List (List Char)
  | _, [] => []
  | true, p :: ps => replPlainL m p :: transformParts m false ps
  | false, p :: ps => p :: transformParts m true ps

/-- The plugin's `on_page_markdown`: split on fences, substitute the
non-code parts, rejoin. -/
def on_page_markdown (m : List (String × String)) (markdown : String) : String :=
  ⟨(transformParts m true (splitFences markdown.data)).flatten⟩

/-! ### Claim C5: code fences are preserved, text outside is substituted -/

theorem splitFencesL_flatten :
    ∀ (fuel : Nat) (acc s : List Char),
      (splitFencesL fuel acc s).flatten = acc.reverse ++ s := by
  intro fuel
  induction fuel with
  | zero => intro acc s; simp [splitFencesL]
  | succ fuel ih =>
      intro acc s
      cases s with
      | nil => simp [splitFencesL]
      | cons c rest =>
          cases hf : fenceMatchAt (c :: rest) with
          | some len =>
              simp only [splitFencesL, hf, List.flatten_cons]
              rw [ih [] ((c :: rest).drop len)]
              simp [List.take_append_drop]
          | none =>
              simp only [splitFencesL, hf]
              rw [ih (c :: acc) rest]
              simp

theorem transformParts_get (m : List (String × String)) :
    ∀ (i : Nat) (ps : List (List Char)),
      (transformParts m true ps).get? (2 * i + 1) = ps.get? (2 * i + 1) ∧
      (transformParts m true ps).get? (2 * i)
        = (ps.get? (2 * i)).map (replPlainL m) := by
  intro i
  induction i with
  | zero =>
      intro ps
      match ps with
      | [] => exact ⟨rfl, rfl⟩
      | [p] => exact ⟨rfl, rfl⟩
      | p :: q :: ps' => exact ⟨rfl, rfl⟩
  | succ i ih =>
      intro ps
      have h21 : 2 * (i + 1) + 1 = 2 * i + 1 + 1 + 1 := by ring
      have h20 : 2 * (i + 1) = 2 * i + 1 + 1 := by ring
      match ps with
      | [] => exact ⟨rfl, rfl⟩
      | [p] =>
          rw [h21, h20]
          constructor
          · simp [transformParts, List.get?_cons_succ]
          · simp [transformParts, List.get?_cons_succ]
      | p :: q :: ps' =>
          rw [h21, h20]
          constructor
          · simp only [transformParts, List.get?_cons_succ]
            exact (ih ps').1
          · simp only [transformParts, List.get?_cons_succ]
            exact (ih ps').2

/-- C5: `on_page_markdown` splits the page into alternating non-code and
fenced-code segments whose concatenation is the original text, returns the
concatenation of the transformed segments in order, keeps every odd-indexed
(fenced-code) segment byte-for-byte, and substitutes exactly the
even-indexed (non-code) segments. -/
theorem c5_fence_partition (m : List (String × String)) (text : String) :
    (splitFences text.data).flatten = text.data ∧
    (on_page_markdown m text).data
      = (transformParts m true (splitFences text.data)).flatten ∧
    (∀ i, (transformParts m true (splitFences text.data)).get? (2 * i + 1)
      = (splitFences text.data).get? (2 * i + 1)) ∧
    (∀ i, (transformParts m true (splitFences text.data)).get? (2 * i)
      = ((splitFences text.data).get? (2 * i)).map (replPlainL m)) := by
  refine ⟨?_, rfl, fun i => (transformParts_get m i _).1,
    fun i => (transformParts_get m i _).2⟩
  unfold splitFences
  rw [splitFencesL_flatten]
  rfl

/-! ### Claim C10: an unclosed fence opener is not treated as code -/

/-- All offsets at which `pat` occurs in `s`. -/
def occPositions (pat : List Char) : List Char → List Nat
  | [] => if pat.isEmpty then [0] else []
  | s@(_ :: rest) =>
      (if pat.isPrefixOf s then [0] else []) ++ (occPositions pat rest).map (· + 1)

theorem mem_occPositions (pat : List Char) (hp : pat ≠ []) :
    ∀ (s : List Char) (i : Nat),
      i ∈ occPositions pat s ↔ pat.isPrefixOf (s.drop i) = true := by
  intro s
  induction s with
  | nil =>
      intro i
      have h1 : occPositions pat [] = [] := by
        simp [occPositions, List.isEmpty_iff, hp]
      have h2 : pat.isPrefixOf (([] : List Char).drop i) = false := by
        rw [List.drop_nil]
        cases pat with
        | nil => exact absurd rfl hp
        | cons a as => rfl
      rw [h1, h2]
      simp
  | cons c rest ih =>
      intro i
      cases i with
      | zero =>
          by_cases hpre : pat.isPrefixOf (c :: rest) = true <;>
            simp [occPositions, hpre]
      | succ j =>
          have hj := ih j
          by_cases hpre : pat.isPrefixOf (c :: rest) = true <;>
            simp [occPositions, hpre, List.drop_succ_cons, hj]

theorem findSub_some (pat : List Char) :
    ∀ (s : List Char) (q : Nat), findSub pat s = some q →
      pat.isPrefixOf (s.drop q) = true := by
  intro s
  induction s with
  | nil =>
      intro q h
      unfold findSub at h
      by_cases he : pat.isEmpty = true
      · have : pat = [] := by simpa [List.isEmpty_iff] using he
        subst this
        rw [List.drop_nil]
        rfl
      · simp [he] at h
  | cons c rest ih =>
      intro q h
      unfold findSub at h
      by_cases hpre : pat.isPrefixOf (c :: rest) = true
      · simp only [hpre, if_true] at h
        have : q = 0 := by simpa using h.symm
        subst this
        exact hpre
      · simp only [hpre, Bool.false_eq_true, if_false, Option.map_eq_some'] at h
        obtain ⟨q', hq', rfl⟩ := h
        rw [List.drop_succ_cons]
        exact ih q' hq'

theorem fenceMatchAt_none_of_unique (s : List Char) (p : Nat)
    (hc : occPositions "```".data s = [p])
    (ht : occPositions "~~~".data s = []) :
    ∀ i, fenceMatchAt (s.drop i) = none := by
  intro i
  unfold fenceMatchAt
  by_cases h1 : "```".data.isPrefixOf (s.drop i) = true
  · have hi : i = p := by
      have hm := (mem_occPositions "```".data (by decide) s i).mpr h1
      rw [hc] at hm
      simpa using hm
    cases hq : findSub "```".data ((s.drop i).drop 3) with
    | none => simp [h1, hq]
    | some q =>
        exfalso
        have hocc := findSub_some _ _ _ hq
        rw [List.drop_drop, List.drop_drop] at hocc
        have hmem := (mem_occPositions "```".data (by decide) s
          (i + (3 + q))).mpr hocc
        rw [hc] at hmem
        have : i + (3 + q) = p := by simpa using hmem
        omega
  · by_cases h2 : "~~~".data.isPrefixOf (s.drop i) = true
    · exfalso
      have hm := (mem_occPositions "~~~".data (by decide) s i).mpr h2
      rw [ht] at hm
      simp at hm
    · simp [h1, h2]

theorem splitFencesL_noMatch :
    ∀ (fuel : Nat) (acc s : List Char),
      (∀ i, fenceMatchAt (s.drop i) = none) →
      splitFencesL fuel acc s = [acc.reverse ++ s] := by
  intro fuel
  induction fuel with
  | zero => intro acc s _; rfl
  | succ fuel ih =>
      intro acc s h
      cases s with
      | nil => simp [splitFencesL]
      | cons c rest =>
          have h0 : fenceMatchAt (c :: rest) = none := by
            have := h 0
            rwa [List.drop_zero] at this
          simp only [splitFencesL, h0]
          rw [ih (c :: acc) rest (fun i => by
            have := h (i + 1)
            rwa [List.drop_succ_cons] at this)]
          simp

/-- C10: a page whose only fence delimiter is a single unclosed opener is
treated entirely as one non-code segment: `on_page_markdown` substitutes
through the whole text, opener included, exactly as `_replace_in_plain`
would. -/
theorem c10_unclosed_opener_substituted (m : List (String × String))
    (text : String) (p : Nat)
    (hc : occPositions "```".data text.data = [p])
    (ht : occPositions "~~~".data text.data = []) :
    on_page_markdown m text = replace_in_plain m text := by
  unfold on_page_markdown
  have hsplit : splitFences text.data = [text.data] := by
    unfold splitFences
    rw [splitFencesL_noMatch _ _ _ (fenceMatchAt_none_of_unique text.data p hc ht)]
    rfl
  rw [hsplit]
  show (⟨(replPlainL m text.data :: transformParts m false []).flatten⟩ : String)
      = replace_in_plain m text
  by_cases hm : m.isEmpty = true
  · simp only [replPlainL, hm, if_true, transformParts, replace_in_plain]
    simp [string_mk_data]
  · simp only [replPlainL, hm, Bool.false_eq_true, if_false, transformParts,
      replace_in_plain]
    simp

/-- C10 witness: an unclosed fence opener followed by a key occurrence. -/
theorem c10_unclosed_opener_substituted_witness :
    occPositions "```".data ("a```b KEY" : String).data = [1] ∧
    on_page_markdown [("KEY", "T")] "a```b KEY"
      = replace_in_plain [("KEY", "T")] "a```b KEY" :=
  ⟨by decide, c10_unclosed_opener_substituted [("KEY", "T")] "a```b KEY" 1
    (by decide) (by decide)⟩

/-! ### The asset injector: on_post_page -/

/-- The fixed style + behavior block injected by `on_post_page`
(the Python `style` string, verbatim). -/
def styleBlock : String := "<style id=\"mlabbr-style\">
.mlabbr \x7b
  text-decoration: underline dotted;
  cursor: help;
\x7d

.mlabbr-tooltip \x7b
  display: none;
  position: fixed;
  z-index: 999;
  background: var(--md-default-bg-color, #fff);
  color: var(--md-typeset-color, #222);
  border: 1px solid var(--md-default-fg-color--lighter, #ddd);
  box-shadow: 0 4px 12px rgba(0, 0, 0, .15);
  padding: 0.75rem 1rem;
  border-radius: 6px;
  font-size: 1.3em;
  line-height: 1.65;
  pointer-events: auto;
  width: max-content;       /* 根據內容自動寬度 */
  max-width: 70ch;          /* 最長不超過約70個字 */
  max-height: 70vh;
  overflow: auto;
  white-space: normal;
  overflow-wrap: break-word;
\x7d

/* 條項款目縮進 */
.mlabbr-line \x7b display: block; \x7d
/* 讓每條之間多一點間距，但第一條不加 */
.mlabbr-line + .mlabbr-line \x7b
  margin-top: 0.5em;   /* 可自行調整，例如 0.4em、0.6em */
\x7d
.mlabbr-l0 \x7b margin-left: 0; \x7d
.mlabbr-l1 \x7b margin-left: 1.2em; \x7d
.mlabbr-l2 \x7b margin-left: 2.4em; \x7d
.mlabbr-l3 \x7b margin-left: 3.6em; \x7d
.mlabbr-l4 \x7b margin-left: 4.8em; \x7d
</style>

<script id=\"mlabbr-script\">
document.addEventListener(\"DOMContentLoaded\", () => \x7b
  const tip = document.createElement(\"div\");
  tip.className = \"mlabbr-tooltip\";
  document.body.appendChild(tip);

  let pinned = false;
  let owner = null;
  let hideTimer = null;

  const place = (anchor) => \x7b
    tip.style.width = \"max-content\";
    tip.style.height = \"auto\";
    tip.style.display = \"block\";

    const rect = anchor.getBoundingClientRect();
    const vw = window.innerWidth;
    const vh = window.innerHeight;
    const m = 10;

    const naturalW = tip.offsetWidth;
    const naturalH = tip.offsetHeight;

    let left = rect.left + rect.width / 2 - naturalW / 2; // 儘量居中
    if (left + naturalW + m > vw) left = vw - naturalW - m;
    if (left < m) left = m;

    let top = rect.bottom + m;
    if (top + naturalH + m > vh) top = rect.top - naturalH - m;
    if (top < m) top = m;

    tip.style.left = `$\x7bleft\x7dpx`;
    tip.style.top = `$\x7btop\x7dpx`;
  \x7d;

  const showFor = (span) => \x7b
    owner = span;
    tip.innerHTML = span.getAttribute(\"data-mlabbr\") || \"\";
    tip.style.display = \"block\";
    place(span);
  \x7d;

  const requestHide = () => \x7b
    if (pinned) return;
    clearTimeout(hideTimer);
    hideTimer = setTimeout(() => \x7b
      if (!pinned) \x7b
        tip.style.display = \"none\";
        owner = null;
      \x7d
    \x7d, 120);
  \x7d;

  document.querySelectorAll(\".mlabbr\").forEach(span => \x7b
    const html = span.getAttribute(\"data-mlabbr\");
    if (!html) return;

    span.addEventListener(\"mouseenter\", () => \x7b if (!pinned) showFor(span); \x7d);
    span.addEventListener(\"mousemove\", () => \x7b if (!pinned && owner === span) place(span); \x7d);
    span.addEventListener(\"mouseleave\", requestHide);
    span.addEventListener(\"click\", e => \x7b
      e.preventDefault();
      if (pinned && owner === span) \x7b pinned = false; requestHide(); \x7d
      else \x7b pinned = true; showFor(span); \x7d
    \x7d);
  \x7d);

  tip.addEventListener(\"mouseenter\", () => clearTimeout(hideTimer));
  tip.addEventListener(\"mouseleave\", requestHide);

  document.addEventListener(\"click\", e => \x7b
    if (!pinned) return;
    if (e.target === tip || (owner && owner.contains(e.target))) return;
    pinned = false;
    requestHide();
  \x7d);

  document.addEventListener(\"keydown\", e => \x7b
    if (e.key === \"Escape\") \x7b
      pinned = false;
      requestHide();
    \x7d
  \x7d);
\x7d);
</script>"

/-- The plugin's `on_post_page`:
`output_content.replace("</body>", style + "</body>")`. -/
def on_post_page (output_content : String) : String :=
  ⟨pyReplace output_content.data "</body>".data
    (styleBlock.data ++ "</body>".data)⟩

/-! ### Claim C2: asset injection before the closing body tag -/

theorem replaceL_no_occ (pat rep : List Char) :
    ∀ (fuel : Nat) (s : List Char), occursSub pat s = false →
      replaceL pat rep fuel s = s := by
  intro fuel
  induction fuel with
  | zero => intro s _; cases s <;> rfl
  | succ fuel ih =>
      intro s h
      cases s with
      | nil => rfl
      | cons c rest =>
          have h' : pat.isPrefixOf (c :: rest) = false ∧
              occursSub pat rest = false := by
            unfold occursSub at h
            exact ⟨by revert h; cases pat.isPrefixOf (c :: rest) <;> simp,
                   by revert h; cases occursSub pat rest <;> simp⟩
          simp [replaceL, h'.1, ih rest h'.2]

theorem body_no_border :
    ∀ l, l < 7 → 0 < l →
      ¬ ("</body>".data.drop l = "</body>".data.take (7 - l)) := by
  decide

/-- The closing-body tag has no non-trivial border, so an occurrence
starting inside `u` in `u ++ ("</body>" ++ w)` lies entirely inside `u`. -/
theorem body_no_straddle (u w : List Char) (hu : u ≠ [])
    (h : "</body>".data.isPrefixOf (u ++ ("</body>".data ++ w)) = true) :
    "</body>".data.isPrefixOf u = true := by
  have hlen : ("</body>".data).length = 7 := by decide
  have hpre := List.isPrefixOf_iff_prefix.mp h
  have htake := List.prefix_iff_eq_take.mp hpre
  rw [hlen] at htake
  by_cases hle : 7 ≤ u.length
  · rw [List.take_append_of_le_length hle] at htake
    have : "</body>".data = u.take ("</body>".data).length := by
      rw [hlen]; exact htake
    exact List.isPrefixOf_iff_prefix.mpr (List.prefix_iff_eq_take.mpr this)
  · exfalso
    have hupos : 0 < u.length := List.length_pos.mpr hu
    have hul : u.length < 7 := by omega
    rw [List.take_append_eq_append_take] at htake
    rw [List.take_of_length_le (by omega)] at htake
    rw [List.take_append_of_le_length (by rw [hlen]; omega)] at htake
    have hdrop := congrArg (List.drop u.length) htake
    rw [List.drop_left] at hdrop
    apply body_no_border u.length hul hupos
    rw [← hdrop]

theorem replace_body_once (rep : List Char) :
    ∀ (a : List Char) (fuel : Nat) (b : List Char),
      (a ++ ("</body>".data ++ b)).length ≤ fuel →
      occursSub "</body>".data a = false →
      occursSub "</body>".data b = false →
      replaceL "</body>".data rep fuel (a ++ ("</body>".data ++ b))
        = a ++ (rep ++ b) := by
  intro a
  induction a with
  | nil =>
      intro fuel b hf ha hb
      simp only [List.nil_append] at hf ⊢
      obtain ⟨f, rfl⟩ : ∃ f, fuel = f + 1 := by
        cases fuel with
        | zero => simp [List.length_append] at hf
        | succ f => exact ⟨f, rfl⟩
      have hcons : "</body>".data ++ b = '<' :: ("/body>".data ++ b) := rfl
      rw [hcons]
      have hguard : "</body>".data.isPrefixOf ('<' :: ("/body>".data ++ b))
          = true := by
        rw [← hcons]
        exact List.isPrefixOf_iff_prefix.mpr (List.prefix_append _ _)
      have hcond : (!("</body>".data).isEmpty &&
          "</body>".data.isPrefixOf ('<' :: ("/body>".data ++ b))) = true := by
        rw [hguard]
        decide
      simp only [replaceL, hcond, if_true]
      rw [show ('<' :: ("/body>".data ++ b)).drop ("</body>".data).length = b
        from rfl]
      rw [replaceL_no_occ _ _ _ _ hb]
  | cons c a' ih =>
      intro fuel b hf ha hb
      have ha' : "</body>".data.isPrefixOf (c :: a') = false ∧
          occursSub "</body>".data a' = false := by
        unfold occursSub at ha
        exact ⟨by revert ha; cases "</body>".data.isPrefixOf (c :: a') <;> simp,
               by revert ha; cases occursSub "</body>".data a' <;> simp⟩
      obtain ⟨f, rfl⟩ : ∃ f, fuel = f + 1 := by
        cases fuel with
        | zero => simp [List.length_append] at hf
        | succ f => exact ⟨f, rfl⟩
      have hnot : "</body>".data.isPrefixOf
          (c :: (a' ++ ("</body>".data ++ b))) = false := by
        by_cases hx : "</body>".data.isPrefixOf
            (c :: (a' ++ ("</body>".data ++ b))) = true
        · have hx' : "</body>".data.isPrefixOf
              ((c :: a') ++ ("</body>".data ++ b)) = true := by
            rw [List.cons_append]
            exact hx
          have hin := body_no_straddle (c :: a') b (by simp) hx'
          rw [ha'.1] at hin
          exact absurd hin (by simp)
        · revert hx
          cases "</body>".data.isPrefixOf
            (c :: (a' ++ ("</body>".data ++ b))) <;> simp
      rw [show (c :: a') ++ ("</body>".data ++ b)
          = c :: (a' ++ ("</body>".data ++ b)) from rfl]
      rw [show (c :: a') ++ (rep ++ b) = c :: (a' ++ (rep ++ b)) from rfl]
      have hcond : (!("</body>".data).isEmpty &&
          "</body>".data.isPrefixOf (c :: (a' ++ ("</body>".data ++ b))))
            = false := by
        rw [hnot, Bool.and_false]
      simp only [replaceL, hcond, Bool.false_eq_true, if_false]
      congr 1
      refine ih f b ?_ ha'.2 hb
      have hf' : (c :: (a' ++ ("</body>".data ++ b))).length ≤ f + 1 := by
        rw [show (c :: a') ++ ("</body>".data ++ b)
            = c :: (a' ++ ("</body>".data ++ b)) from rfl] at hf
        exact hf
      simp only [List.length_cons] at hf' ⊢
      omega

/-- C2 counterexample: a rendered page with no closing body marker is
returned unchanged — the style and script blocks are not appended at all,
refuting the claim as stated for every page string. -/
theorem c2_counterexample :
    on_post_page "<html></html>" = "<html></html>" ∧
    occursSub styleBlock.data ("<html></html>" : String).data = false := by
  constructor
  · unfold on_post_page pyReplace
    rw [replaceL_no_occ _ _ _ _ (by decide)]
  · decide

/-- C2 (amended): on a rendered page containing exactly one occurrence of
the closing body marker, `on_post_page` appends the fixed style/script
block exactly once, immediately before that marker, leaving the rest of
the page unchanged (and, being a pure function, the same input always
yields the same output). -/
theorem c2_inject_once_before_body (a b : String)
    (ha : occursSub "</body>".data a.data = false)
    (hb : occursSub "</body>".data b.data = false) :
    on_post_page (a ++ "</body>" ++ b) = a ++ styleBlock ++ "</body>" ++ b := by
  have hdata : (a ++ "</body>" ++ b).data
      = a.data ++ ("</body>".data ++ b.data) := by
    simp [String.data_append, List.append_assoc]
  have hcore := replace_body_once (styleBlock.data ++ "</body>".data) a.data
    (a.data ++ ("</body>".data ++ b.data)).length b.data le_rfl ha hb
  unfold on_post_page pyReplace
  rw [hdata, hcore]
  apply String.ext
  show a.data ++ ((styleBlock.data ++ "</body>".data) ++ b.data)
      = (a ++ styleBlock ++ "</body>" ++ b).data
  simp [String.data_append, List.append_assoc]

/-- C2 witness: a concrete page with one closing body marker. -/
theorem c2_inject_once_before_body_witness :
    occursSub "</body>".data ("<html>" : String).data = false ∧
    on_post_page ("<html>" ++ "</body>" ++ "</html>")
      = "<html>" ++ styleBlock ++ "</body>" ++ "</html>" :=
  ⟨by decide, c2_inject_once_before_body "<html>" "</html>" (by decide)
    (by decide)⟩
